import Mathlib

/-!
Verification of the post-processing core of the multi-agent content pipeline
(`multi_agent_content_orchestra.py`): the section splitter
(`save_sections_to_files`), the outline-to-deck builder
(`build_slides_from_outline`), the filename derivation, and the startup topic
validation.

Python strings are embedded as Lean `String`; the handful of Python string
methods the script uses (`strip`, `lstrip` with a character set, `split` on a
separator, `splitlines`, `lower`, `replace(" ", "_")`, `join`) are embedded as
explicit character-list functions below, so that every proof can reason about
them directly.  Whitespace is the ASCII whitespace the script's inputs use
(space, tab, carriage return, line feed).
-/

namespace Orchestra

/-- ASCII whitespace, the characters Python's `str.strip()` removes on the
inputs this script handles. -/
def isWs (c : Char) : Bool :=
  c = ' ' || c = '\t' || c = '\r' || c = '\n'

/-- Embedding of Python `s.strip()`: drop whitespace from both ends. -/
def pyStrip (s : String) : String :=
  ⟨((s.data.dropWhile isWs).reverse.dropWhile isWs).reverse⟩

/-- Embedding of Python `s.lstrip(chars)`: drop the leading run of characters
belonging to `set`. -/
def pyLstrip (set : List Char) (s : String) : String :=
  ⟨s.data.dropWhile (fun c => set.contains c)⟩

/-- Embedding of Python `s.lower()` for the ASCII marker strings. -/
def pyLower (s : String) : String :=
  ⟨s.data.map Char.toLower⟩

/-- Embedding of Python `s.strip(chars)` for the bracket-stripping call
`marker.strip("[]")`: drop characters of `set` from both ends. -/
def pyStripChars (set : List Char) (s : String) : String :=
  ⟨((s.data.dropWhile (fun c => set.contains c)).reverse.dropWhile
      (fun c => set.contains c)).reverse⟩

/-- Embedding of Python `s.replace(" ", "_")` (single-character pattern, so a
character map). -/
def pyReplaceSpace (s : String) : String :=
  ⟨s.data.map (fun c => if c = ' ' then '_' else c)⟩

/-- Leftmost non-overlapping split of a character list at occurrences of the
(non-empty) separator `sep` — the semantics of Python `s.split(sep)`.  The
`fuel` argument makes the recursion structural; `splitSeq` supplies enough
fuel, and the fuel-exhaustion branch is never reached. -/
def splitSeqF (sep : List Char) : Nat → List Char → List (List Char)
  | _, [] => [[]]
  | 0, cs => [cs]
  | fuel + 1, c :: cs =>
    if sep ≠ [] ∧ sep.isPrefixOf (c :: cs) then
      [] :: splitSeqF sep fuel (List.drop sep.length (c :: cs))
    else
      match splitSeqF sep fuel cs with
      | [] => [[c]]
      | p :: ps => (c :: p) :: ps

/-- Leftmost non-overlapping split at occurrences of `sep`. -/
def splitSeq (sep : List Char) (cs : List Char) : List (List Char) :=
  splitSeqF sep cs.length cs

/-- Embedding of Python `s.split(sep)` for non-empty `sep`. -/
def pySplit (sep : String) (s : String) : List String :=
  (splitSeq sep.data s.data).map String.mk

/-- Joining with a separator at the character level — the semantics of Python
`sep.join(parts)`. -/
def joinSeq (sep : List Char) : List (List Char) → List Char
  | [] => []
  | [p] => p
  | p :: q :: ps => p ++ sep ++ joinSeq sep (q :: ps)

/-- Embedding of Python `sep.join(parts)`. -/
def pyJoin (sep : String) (parts : List String) : String :=
  ⟨joinSeq sep.data (parts.map String.data)⟩

/-! ## Startup topic validation

`TOPIC = input(...).strip()` followed by
`if not TOPIC: raise ValueError("Topic cannot be empty. ...")`.
The raised exception is embedded as `Except.error`; `Except.ok` carries the
validated topic with which the pipeline proceeds. -/

/-- Embedding of the topic validation at startup (source lines 38–42). -/
def validateTopic (raw : String) : Except String String :=
  let t := pyStrip raw
  if t = "" then
    Except.error "Topic cannot be empty. Please run again and enter a valid topic."
  else
    Except.ok t

/-! ## Section splitting (`save_sections_to_files`) -/

/-- The four fixed section markers (source lines 273–278). -/
def markers : List String :=
  ["[KEYNOTE SPEECH]", "[LINKEDIN POST]", "[YOUTUBE SCRIPT]", "[SLIDE OUTLINE]"]

/-- A line whose stripped form is one of the markers. -/
def isMarkerLine (l : String) : Bool :=
  markers.contains (pyStrip l)

/-- Association-list lookup, the embedding of Python `dict` indexing
(`sections[current]`); `none` is a `KeyError`. -/
def lookupSec (m : String) : List (String × List String) → Option (List String)
  | [] => none
  | (k, v) :: rest => if k = m then some v else lookupSec m rest

/-- Append line `l` to the bucket of key `m` (`sections[current].append(line)`)
in the total model; on a missing key it is the identity. -/
def updateSec (m l : String) : List (String × List String) → List (String × List String)
  | [] => []
  | (k, v) :: rest =>
    if k = m then (k, v ++ [l]) :: rest else (k, v) :: updateSec m l rest

/-- The initial dictionary `{m: [] for m in markers}` (source line 281). -/
def initSections : List (String × List String) :=
  markers.map (fun m => (m, []))

/-- The splitting loop of `save_sections_to_files` (source lines 285–293):
strip each line; a marker line moves the cursor and is skipped; any other line
is appended to the current bucket when the cursor is set (`if current:` — the
cursor only ever holds one of the non-empty marker strings, so Python
truthiness coincides with `Option.isSome`). -/
def collectGo : List String → Option String → List (String × List String) →
    List (String × List String)
  | [], _, secs => secs
  | l :: ls, cur, secs =>
    let t := pyStrip l
    if markers.contains t then
      collectGo ls (some t) secs
    else
      match cur with
      | none => collectGo ls none secs
      | some m => collectGo ls (some m) (updateSec m l secs)

/-- The same loop with Python's `KeyError` made explicit: the bucket of the
cursor is looked up, and a missing key aborts the whole computation with
`none`. -/
def collectGoSafe : List String → Option String → List (String × List String) →
    Option (List (String × List String))
  | [], _, secs => some secs
  | l :: ls, cur, secs =>
    let t := pyStrip l
    if markers.contains t then
      collectGoSafe ls (some t) secs
    else
      match cur with
      | none => collectGoSafe ls none secs
      | some m =>
        match lookupSec m secs with
        | none => none
        | some _ => collectGoSafe ls (some m) (updateSec m l secs)

/-- The sections dictionary produced for a list of input lines. -/
def sectionsOf (lines : List String) : List (String × List String) :=
  collectGo lines none initSections

/-- The bucket of marker `m` (empty when absent). -/
def getSec (m : String) (secs : List (String × List String)) : List String :=
  (lookupSec m secs).getD []

/-- Filename derivation (source line 300):
`marker.strip("[]").lower().replace(" ", "_") + ".txt"`. -/
def filenameFor (m : String) : String :=
  pyReplaceSpace (pyLower (pyStripChars ['[', ']'] m)) ++ ".txt"

/-- The files written by `save_sections_to_files` (source lines 296–302):
one `(filename, content)` pair per non-empty bucket, the content being the
lines rejoined with newlines and then stripped. -/
def writtenFiles (lines : List String) : List (String × String) :=
  (sectionsOf lines).filterMap fun p =>
    if p.2 = [] then none
    else some (filenameFor p.1, pyStrip (pyJoin "\n" p.2))

/-! ## Outline to deck (`build_slides_from_outline`) -/

/-- A rendered slide: a title and its non-empty bullet paragraphs, in order. -/
structure Slide where
  title : String
  bullets : List String
deriving DecidableEq, Repr

/-- The slide blocks (source line 324):
`[b.strip() for b in text.split("\n\n") if b.strip()]`. -/
def blocksOf (text : String) : List String :=
  (pySplit "\n\n" text).filterMap fun b =>
    let s := pyStrip b
    if s = "" then none else some s

/-- The cleaned lines of one block (source line 336):
`[line.strip() for line in block.splitlines() if line.strip()]`. -/
def blockLines (block : String) : List String :=
  (pySplit "\n" block).filterMap fun l =>
    let s := pyStrip l
    if s = "" then none else some s

/-- Everything after the first `':'`, when there is one — the semantics of
Python `raw.split(":", 1)`. -/
def splitFirstColon : List Char → Option (List Char × List Char)
  | [] => none
  | c :: cs =>
    if c = ':' then some ([], cs)
    else
      match splitFirstColon cs with
      | none => none
      | some (pre, post) => some (c :: pre, post)

/-- Title extraction from the first line of a block (source lines 341–345):
`raw.split(":", 1)[1].strip()` when the line contains a colon, otherwise the
line itself. -/
def titleOf (raw : String) : String :=
  match splitFirstColon raw.data with
  | none => raw
  | some (_, post) => pyStrip ⟨post⟩

/-- Bullet-glyph characters, the set of Python `l.lstrip("-• ")`. -/
def isGlyph (c : Char) : Bool :=
  c = '-' || c = '•' || c = ' '

/-- Bullet cleaning (source line 348): `l.lstrip("-• ").strip()`. -/
def stripBullet (l : String) : String :=
  pyStrip (pyLstrip ['-', '•', ' '] l)

/-- The slide a block renders to (source lines 334–368): skipped when the block
has no non-blank lines; otherwise the first line yields the title and the
remaining lines, cleaned, yield the bullets, empty ones skipped by the
rendering loop (`if not bullet: continue`). -/
def slideOfBlock (block : String) : Option Slide :=
  match blockLines block with
  | [] => none
  | t :: rest =>
    some ⟨titleOf t, (rest.map stripBullet).filter (fun b => b ≠ "")⟩

/-- All slides built from the outline text, in block order. -/
def buildSlides (text : String) : List Slide :=
  (blocksOf text).filterMap slideOfBlock

/-- Embedding of `build_slides_from_outline` (source lines 306–372) over the
outline file's content: `none` as input means the outline file is missing.
The result is `none` exactly when the function returns before creating the
presentation — a diagnostic is printed, no slide is produced and nothing is
written to the deck path, so a pre-existing deck file is left unchanged;
`some slides` means the deck is written containing exactly `slides`. -/
def build_slides_from_outline (content : Option String) : Option (List Slide) :=
  match content with
  | none => none
  | some text =>
    if blocksOf text = [] then none
    else some (buildSlides text)

/-! ## Spec-side definitions

These two definitions follow the words of the specification (not the source);
they exist to be compared with the source-derived definitions above. -/

/-- Follows the spec's words (§4.1, §8): the content lines collected under
marker `m` are exactly the non-marker input lines whose most recently seen
marker line is `m`, kept verbatim and in order; `cur` is the most recent
marker seen so far (`none` before the first marker, whose lines are
discarded). -/
def specSectionLines (m : String) : Option String → List String → List String
  | _, [] => []
  | cur, l :: ls =>
    if isMarkerLine l then specSectionLines m (some (pyStrip l)) ls
    else (if cur = some m then [l] else []) ++ specSectionLines m cur ls

/-- Follows the claim's words for C1: split the text into lines, treat every
line that strips to the empty string as a block separator, rejoin each group
of the remaining lines with newlines, strip each group and discard groups
that strip to empty. -/
def blocksSpecBlankLines (text : String) : List String :=
  (((pySplit "\n" text).splitOnP (fun l => pyStrip l = "")).map
      (fun g => pyStrip (pyJoin "\n" g))).filter (fun b => b ≠ "")

/-! ## Basic lemmas about the string primitives -/

theorem dropWhile_idem (p : Char → Bool) (l : List Char) :
    (l.dropWhile p).dropWhile p = l.dropWhile p := by
  induction l with
  | nil => rfl
  | cons c cs ih =>
    by_cases h : p c
    · simp [List.dropWhile_cons, h, ih]
    · simp [List.dropWhile_cons, h]

theorem dropWhile_head_false (p : Char → Bool) (l : List Char) :
    l.dropWhile p = [] ∨ ∃ c rest, l.dropWhile p = c :: rest ∧ p c = false := by
  induction l with
  | nil => exact Or.inl rfl
  | cons c cs ih =>
    by_cases h : p c
    · simpa [List.dropWhile_cons, h] using ih
    · exact Or.inr ⟨c, cs, by simp [List.dropWhile_cons, h], by simpa using h⟩

theorem all_ws_of_pyStrip_eq_empty {s : String} (h : pyStrip s = "") :
    ∀ c ∈ s.data, isWs c = true := by
  intro c hc
  have hdata : (((s.data.dropWhile isWs).reverse.dropWhile isWs).reverse) = [] := by
    have := congrArg String.data h
    simpa [pyStrip] using this
  rw [List.reverse_eq_nil_iff, List.dropWhile_eq_nil_iff] at hdata
  have hall : ∀ x ∈ s.data.dropWhile isWs, isWs x := by
    intro x hx
    exact hdata x (List.mem_reverse.mpr hx)
  rcases (List.takeWhile_append_dropWhile (p := isWs) (l := s.data)) ▸ hc with h'
  rcases List.mem_append.mp h' with h1 | h2
  · exact List.mem_takeWhile_imp h1
  · exact hall c h2

theorem pyStrip_eq_empty_of_all_ws {s : String} (h : ∀ c ∈ s.data, isWs c = true) :
    pyStrip s = "" := by
  have h1 : s.data.dropWhile isWs = [] :=
    List.dropWhile_eq_nil_iff.mpr (fun x hx => h x hx)
  simp [pyStrip, h1]

theorem pyStrip_eq_empty_iff (s : String) :
    pyStrip s = "" ↔ ∀ c ∈ s.data, isWs c = true :=
  ⟨all_ws_of_pyStrip_eq_empty, pyStrip_eq_empty_of_all_ws⟩

theorem dropWhile_reverse_prefix_head (p : Char → Bool) (l : List Char) :
    (l.reverse.dropWhile p).reverse.head? = if (l.reverse.dropWhile p).reverse = [] then none else l.head? := by
  rcases hl : (l.reverse.dropWhile p).reverse with _ | ⟨c, rest⟩
  · simp
  · have hpre : (c :: rest) <+: l := by
      have hsuf : l.reverse.dropWhile p <:+ l.reverse := List.dropWhile_suffix p
      have h2 : (l.reverse.dropWhile p).reverse <+: l.reverse.reverse :=
        (@List.reverse_prefix _ (l.reverse.dropWhile p) l.reverse).mpr hsuf
      simpa [hl] using h2
    rcases hpre with ⟨t, ht⟩
    simp [hl, ← ht]

theorem pyStrip_idem (s : String) : pyStrip (pyStrip s) = pyStrip s := by
  unfold pyStrip
  congr 1
  set a := s.data.dropWhile isWs with ha
  have hhead : a = [] ∨ ∃ c rest, a = c :: rest ∧ isWs c = false := dropWhile_head_false _ _
  set b := (a.reverse.dropWhile isWs).reverse with hb
  have hb1 : b.dropWhile isWs = b := by
    rcases hhead with h | ⟨c, rest, hcr, hc⟩
    · simp [hb, h]
    · have := dropWhile_reverse_prefix_head isWs a
      rcases hbe : b with _ | ⟨x, xs⟩
      · simp
      · have hx : some x = a.head? := by
          have h2 := this
          rw [← hb] at h2
          rw [hbe] at h2
          simpa using h2
        have : x = c := by
          rw [hcr] at hx
          simpa using hx
        simp [List.dropWhile_cons, this, hc]
  rw [show (⟨b⟩ : String).data = b from rfl, hb1]
  have hlast : b.reverse.dropWhile isWs = b.reverse := by
    have : b.reverse = a.reverse.dropWhile isWs := by simp [hb]
    rw [this, dropWhile_idem]
  rw [hlast]
  simp

theorem splitSeqF_ne_nil (sep : List Char) (fuel : Nat) (cs : List Char) :
    splitSeqF sep fuel cs ≠ [] := by
  cases cs with
  | nil => cases fuel <;> simp [splitSeqF]
  | cons c cs =>
    cases fuel with
    | zero => simp [splitSeqF]
    | succ fuel =>
      rw [splitSeqF]
      split
      · simp
      · split <;> simp

theorem splitSeq_ne_nil (sep : List Char) (cs : List Char) : splitSeq sep cs ≠ [] :=
  splitSeqF_ne_nil sep cs.length cs

theorem joinSeq_splitSeqF (sep : List Char) (hsep : sep ≠ []) :
    ∀ (fuel : Nat) (cs : List Char), cs.length ≤ fuel →
      joinSeq sep (splitSeqF sep fuel cs) = cs := by
  intro fuel
  induction fuel with
  | zero =>
    intro cs hcs
    have : cs = [] := List.length_eq_zero.mp (Nat.le_zero.mp hcs)
    subst this
    simp [splitSeqF, joinSeq]
  | succ fuel ih =>
    intro cs hcs
    cases cs with
    | nil => simp [splitSeqF, joinSeq]
    | cons c cs =>
      rw [splitSeqF]
      split
      · rename_i h
        have hpre : sep <+: (c :: cs) := List.isPrefixOf_iff_prefix.mp h.2
        rcases hpre with ⟨t, ht⟩
        have hdrop : List.drop sep.length (c :: cs) = t := by
          rw [← ht]; exact List.drop_left sep t
        have h1 : 1 ≤ sep.length := by
          cases sep with
          | nil => exact absurd rfl hsep
          | cons x xs => simp
        have hlen : t.length ≤ fuel := by
          have h2 := congrArg List.length ht
          simp only [List.length_append, List.length_cons] at h2 hcs
          omega
        have hrec : joinSeq sep (splitSeqF sep fuel t) = t := ih t hlen
        rw [hdrop]
        rcases hs : splitSeqF sep fuel t with _ | ⟨p, ps⟩
        · exact absurd hs (splitSeqF_ne_nil sep fuel t)
        · rw [hs] at hrec
          calc joinSeq sep ([] :: p :: ps) = sep ++ joinSeq sep (p :: ps) := by
                simp [joinSeq]
            _ = sep ++ t := by rw [hrec]
            _ = c :: cs := ht
      · have hlen : cs.length ≤ fuel := by
          simp only [List.length_cons] at hcs
          omega
        have hrec : joinSeq sep (splitSeqF sep fuel cs) = cs := ih cs hlen
        rcases hs : splitSeqF sep fuel cs with _ | ⟨p, ps⟩
        · exact absurd hs (splitSeqF_ne_nil sep fuel cs)
        · rw [hs] at hrec
          cases ps with
          | nil => simpa [joinSeq] using congrArg (c :: ·) hrec
          | cons q ps' =>
            calc joinSeq sep ((c :: p) :: q :: ps')
                = c :: (p ++ sep ++ joinSeq sep (q :: ps')) := by simp [joinSeq]
              _ = c :: joinSeq sep (p :: q :: ps') := by simp [joinSeq]
              _ = c :: cs := by rw [hrec]

theorem joinSeq_splitSeq (sep : List Char) (hsep : sep ≠ []) (cs : List Char) :
    joinSeq sep (splitSeq sep cs) = cs :=
  joinSeq_splitSeqF sep hsep cs.length cs (Nat.le_refl _)

theorem mem_joinSeq_of_mem (sep : List Char) (ps : List (List Char)) :
    ∀ p ∈ ps, ∀ c ∈ p, c ∈ joinSeq sep ps := by
  induction ps with
  | nil => simp
  | cons p ps ih =>
    intro q hq c hc
    cases ps with
    | nil =>
      have hq' : q = p := by simpa using hq
      subst hq'
      simpa [joinSeq] using hc
    | cons r ps' =>
      rcases List.mem_cons.mp hq with hq | hq
      · subst hq
        simp [joinSeq, hc]
      · have := ih q hq c hc
        simp [joinSeq]
        simp [joinSeq] at this
        tauto

theorem mem_of_mem_splitSeq {sep cs : List Char} (hsep : sep ≠ [])
    {p : List Char} (hp : p ∈ splitSeq sep cs) {c : Char} (hc : c ∈ p) : c ∈ cs := by
  have h := mem_joinSeq_of_mem sep (splitSeq sep cs) p hp c hc
  rwa [joinSeq_splitSeq sep hsep cs] at h

theorem filterMap_strip_eq_map_filter (f : String → String) (l : List String) :
    (l.filterMap fun b => let s := f b; if s = "" then none else some s) =
      ((l.map f).filter fun b => b ≠ "") := by
  induction l with
  | nil => rfl
  | cons x xs ih =>
    by_cases h : f x = ""
    · simp [List.filterMap_cons, List.filter_cons, h, ih]
    · simp [List.filterMap_cons, List.filter_cons, h, ih]

theorem pyJoin_pySplit (sep : String) (hsep : sep ≠ "") (s : String) :
    pyJoin sep (pySplit sep s) = s := by
  have hd : sep.data ≠ [] := by
    intro h
    apply hsep
    cases sep with
    | mk d => simpa using congrArg String.mk h
  unfold pyJoin pySplit
  rw [List.map_map]
  have hcomp : (String.data ∘ String.mk) = id := by
    funext l
    rfl
  rw [hcomp, List.map_id, joinSeq_splitSeq sep.data hd s.data]

/-! ## Lemmas about the section-splitting loop -/

theorem lookupSec_updateSec_self (m l : String) (secs : List (String × List String))
    (v : List String) (h : lookupSec m secs = some v) :
    lookupSec m (updateSec m l secs) = some (v ++ [l]) := by
  induction secs with
  | nil => simp [lookupSec] at h
  | cons p rest ih =>
    obtain ⟨k, w⟩ := p
    by_cases hk : k = m
    · subst hk
      simp [lookupSec] at h
      simp [updateSec, lookupSec, h]
    · simp [lookupSec, hk] at h
      simp [updateSec, lookupSec, hk, ih h]

theorem lookupSec_updateSec_ne (m m' l : String) (secs : List (String × List String))
    (h : m ≠ m') : lookupSec m (updateSec m' l secs) = lookupSec m secs := by
  induction secs with
  | nil => rfl
  | cons p rest ih =>
    obtain ⟨k, w⟩ := p
    by_cases hk : k = m'
    · subst hk
      have hkm : k ≠ m := fun he => h he.symm
      simp [updateSec, lookupSec, hkm]
    · by_cases hkm : k = m
      · subst hkm
        simp [updateSec, lookupSec, hk]
      · simp [updateSec, lookupSec, hk, hkm, ih]

theorem lookupSec_isSome_of_mem_keys (m : String) (secs : List (String × List String))
    (h : m ∈ secs.map Prod.fst) : ∃ v, lookupSec m secs = some v := by
  induction secs with
  | nil => simp at h
  | cons p rest ih =>
    obtain ⟨k, w⟩ := p
    by_cases hk : k = m
    · exact ⟨w, by simp [lookupSec, hk]⟩
    · have hrest : m ∈ rest.map Prod.fst := by
        simp only [List.map_cons, List.mem_cons] at h
        rcases h with h1 | h1
        · exact absurd h1.symm hk
        · exact h1
      rcases ih hrest with ⟨v, hv⟩
      exact ⟨v, by simp [lookupSec, hk, hv]⟩

theorem map_fst_updateSec (m l : String) (secs : List (String × List String)) :
    (updateSec m l secs).map Prod.fst = secs.map Prod.fst := by
  induction secs with
  | nil => rfl
  | cons p rest ih =>
    obtain ⟨k, w⟩ := p
    by_cases hk : k = m
    · simp [updateSec, hk]
    · simp [updateSec, hk, ih]

theorem map_fst_collectGo (lines : List String) :
    ∀ (cur : Option String) (secs : List (String × List String)),
      (collectGo lines cur secs).map Prod.fst = secs.map Prod.fst := by
  induction lines with
  | nil => intro cur secs; rfl
  | cons l ls ih =>
    intro cur secs
    cases cur with
    | none =>
      by_cases h : markers.contains (pyStrip l)
      · simp only [collectGo, h, if_true, ih]
      · simp only [collectGo, h, Bool.false_eq_true, if_false, ih]
    | some m =>
      by_cases h : markers.contains (pyStrip l)
      · simp only [collectGo, h, if_true, ih]
      · simp only [collectGo, h, Bool.false_eq_true, if_false, ih, map_fst_updateSec]

theorem getSec_updateSec_self (m l : String) (secs : List (String × List String))
    (h : m ∈ secs.map Prod.fst) :
    getSec m (updateSec m l secs) = getSec m secs ++ [l] := by
  rcases lookupSec_isSome_of_mem_keys m secs h with ⟨v, hv⟩
  simp [getSec, hv, lookupSec_updateSec_self m l secs v hv]

theorem getSec_updateSec_ne (m m' l : String) (secs : List (String × List String))
    (h : m ≠ m') : getSec m (updateSec m' l secs) = getSec m secs := by
  simp [getSec, lookupSec_updateSec_ne m m' l secs h]

/-- Master refinement lemma: the bucket of marker `m` after running the
splitting loop equals what was already there followed by the declaratively
characterized content lines. -/
theorem getSec_collectGo (m : String) (lines : List String) :
    ∀ (cur : Option String) (secs : List (String × List String)),
      m ∈ secs.map Prod.fst →
      getSec m (collectGo lines cur secs) = getSec m secs ++ specSectionLines m cur lines := by
  induction lines with
  | nil => intro cur secs _; simp [collectGo, specSectionLines]
  | cons l ls ih =>
    intro cur secs hm
    by_cases h : markers.contains (pyStrip l)
    · have hml : isMarkerLine l := h
      cases cur with
      | none =>
        simp only [collectGo, h, if_true]
        rw [ih (some (pyStrip l)) secs hm]
        simp [specSectionLines, hml]
      | some m' =>
        simp only [collectGo, h, if_true]
        rw [ih (some (pyStrip l)) secs hm]
        simp [specSectionLines, hml]
    · have hml : isMarkerLine l = false := by simpa [isMarkerLine] using h
      cases cur with
      | none =>
        simp only [collectGo, h, Bool.false_eq_true, if_false]
        rw [ih none secs hm]
        simp [specSectionLines, hml]
      | some m' =>
        simp only [collectGo, h, Bool.false_eq_true, if_false]
        have hm' : m ∈ (updateSec m' l secs).map Prod.fst := by
          rwa [map_fst_updateSec]
        rw [ih (some m') (updateSec m' l secs) hm']
        by_cases he : m' = m
        · subst he
          rw [getSec_updateSec_self m' l secs hm]
          simp [specSectionLines, hml]
        · rw [getSec_updateSec_ne m m' l secs (fun hx => he hx.symm)]
          simp [specSectionLines, hml, he]

theorem getSec_initSections (m : String) (hm : m ∈ markers) :
    getSec m initSections = [] := by
  have : m = "[KEYNOTE SPEECH]" ∨ m = "[LINKEDIN POST]" ∨
      m = "[YOUTUBE SCRIPT]" ∨ m = "[SLIDE OUTLINE]" := by
    simpa [markers] using hm
  rcases this with rfl | rfl | rfl | rfl <;> decide

theorem getSec_sectionsOf (m : String) (hm : m ∈ markers) (lines : List String) :
    getSec m (sectionsOf lines) = specSectionLines m none lines := by
  have hkeys : m ∈ initSections.map Prod.fst := by
    simpa [initSections] using hm
  rw [sectionsOf, getSec_collectGo m lines none initSections hkeys,
    getSec_initSections m hm]
  simp

theorem specSectionLines_no_marker (m : String) :
    ∀ (cur : Option String) (lines : List String),
      ∀ l ∈ specSectionLines m cur lines, isMarkerLine l = false := by
  intro cur lines
  induction lines generalizing cur with
  | nil => simp [specSectionLines]
  | cons l ls ih =>
    intro x hx
    rw [specSectionLines] at hx
    by_cases h : isMarkerLine l
    · rw [if_pos h] at hx
      exact ih (some (pyStrip l)) x hx
    · rw [if_neg h] at hx
      rcases List.mem_append.mp hx with h1 | h1
      · by_cases hc : cur = some m
        · rw [if_pos hc] at h1
          have : x = l := by simpa using h1
          subst this
          simpa using h
        · rw [if_neg hc] at h1
          simp at h1
      · exact ih cur x h1

theorem specSectionLines_append_content (m : String) (a : List String)
    (ha : ∀ l ∈ a, isMarkerLine l = false) :
    ∀ rest : List String,
      specSectionLines m (some m) (a ++ rest) = a ++ specSectionLines m (some m) rest := by
  induction a with
  | nil => intro rest; simp
  | cons l ls ih =>
    intro rest
    have hl : isMarkerLine l = false := ha l (by simp)
    have hls : ∀ x ∈ ls, isMarkerLine x = false := fun x hx => ha x (by simp [hx])
    have hstep : specSectionLines m (some m) (l :: (ls ++ rest)) =
        [l] ++ specSectionLines m (some m) (ls ++ rest) := by
      simp [specSectionLines, hl]
    rw [List.cons_append, hstep, ih hls rest]
    simp

theorem collectGoSafe_eq_some (lines : List String) :
    ∀ (cur : Option String) (secs : List (String × List String)),
      (∀ x, cur = some x → x ∈ secs.map Prod.fst) →
      (∀ m ∈ markers, m ∈ secs.map Prod.fst) →
      collectGoSafe lines cur secs = some (collectGo lines cur secs) := by
  induction lines with
  | nil => intro cur secs _ _; rfl
  | cons l ls ih =>
    intro cur secs h1 h2
    by_cases h : markers.contains (pyStrip l)
    · have hmem : pyStrip l ∈ markers := by simpa using h
      cases cur with
      | none =>
        simp only [collectGoSafe, collectGo, h, if_true]
        exact ih (some (pyStrip l)) secs
          (fun x hx => by cases hx; exact h2 _ hmem) h2
      | some m' =>
        simp only [collectGoSafe, collectGo, h, if_true]
        exact ih (some (pyStrip l)) secs
          (fun x hx => by cases hx; exact h2 _ hmem) h2
    · cases cur with
      | none =>
        simp only [collectGoSafe, collectGo, h, Bool.false_eq_true, if_false]
        exact ih none secs (fun x hx => by cases hx) h2
      | some m' =>
        rcases lookupSec_isSome_of_mem_keys m' secs (h1 m' rfl) with ⟨v, hv⟩
        simp only [collectGoSafe, collectGo, h, Bool.false_eq_true, if_false, hv]
        exact ih (some m') (updateSec m' l secs)
          (fun x hx => by cases hx; rw [map_fst_updateSec]; exact h1 m' rfl)
          (fun m hm => by rw [map_fst_updateSec]; exact h2 m hm)

theorem mem_joinSeq_cases (sep : List Char) (ps : List (List Char)) (c : Char)
    (hc : c ∈ joinSeq sep ps) : c ∈ sep ∨ ∃ p ∈ ps, c ∈ p := by
  induction ps with
  | nil => simp [joinSeq] at hc
  | cons p ps ih =>
    cases ps with
    | nil =>
      simp only [joinSeq] at hc
      exact Or.inr ⟨p, by simp, hc⟩
    | cons q ps' =>
      simp only [joinSeq] at hc
      rcases List.mem_append.mp hc with h1 | h1
      · rcases List.mem_append.mp h1 with h2 | h2
        · exact Or.inr ⟨p, by simp, h2⟩
        · exact Or.inl h2
      · rcases ih h1 with h2 | ⟨r, hr, hcr⟩
        · exact Or.inl h2
        · exact Or.inr ⟨r, by simp [List.mem_cons.mp hr], hcr⟩

theorem pyStrip_pyJoin_eq_empty (ls : List String) (h : ∀ l ∈ ls, pyStrip l = "") :
    pyStrip (pyJoin "\n" ls) = "" := by
  apply pyStrip_eq_empty_of_all_ws
  intro c hc
  have hc' : c ∈ joinSeq ['\n'] (ls.map String.data) := hc
  rcases mem_joinSeq_cases _ _ c hc' with h1 | ⟨p, hp, hcp⟩
  · have : c = '\n' := by simpa using h1
    subst this
    rfl
  · rcases List.mem_map.mp hp with ⟨l, hl, rfl⟩
    exact all_ws_of_pyStrip_eq_empty (h l hl) c hcp

theorem pyStrip_of_all_ws_text {text : String} (h : pyStrip text = "")
    {sep : String} (hsep : sep ≠ "") :
    ∀ b ∈ pySplit sep text, pyStrip b = "" := by
  intro b hb
  apply pyStrip_eq_empty_of_all_ws
  intro c hc
  have hd : sep.data ≠ [] := by
    intro hx
    apply hsep
    cases sep with
    | mk d => simpa using congrArg String.mk hx
  rcases List.mem_map.mp hb with ⟨p, hp, rfl⟩
  have : c ∈ text.data := mem_of_mem_splitSeq hd hp hc
  exact all_ws_of_pyStrip_eq_empty h c this

theorem mem_blocksOf {text b : String} (hb : b ∈ blocksOf text) :
    pyStrip b = b ∧ b ≠ "" := by
  rw [blocksOf] at hb
  rcases List.mem_filterMap.mp hb with ⟨piece, hpiece, hsome⟩
  by_cases hs : pyStrip piece = ""
  · simp [hs] at hsome
  · simp only [hs, if_neg, Bool.false_eq_true, not_false_iff, Option.some.injEq] at hsome
    rcases hsome with rfl
    exact ⟨pyStrip_idem piece, hs⟩

theorem blockLines_ne_nil {b : String} (h1 : pyStrip b = b) (h2 : b ≠ "") :
    blockLines b ≠ [] := by
  intro hnil
  rw [blockLines, List.filterMap_eq_nil_iff] at hnil
  have hall : ∀ piece ∈ pySplit "\n" b, pyStrip piece = "" := by
    intro piece hpiece
    have := hnil piece hpiece
    by_cases hs : pyStrip piece = ""
    · exact hs
    · simp [hs] at this
  have hjoin : pyStrip (pyJoin "\n" (pySplit "\n" b)) = "" :=
    pyStrip_pyJoin_eq_empty _ hall
  rw [pyJoin_pySplit "\n" (by decide) b] at hjoin
  rw [h1] at hjoin
  exact h2 hjoin

theorem lookupSec_eq_some_of_mem {m : String} {v : List String}
    {secs : List (String × List String)} (hnd : (secs.map Prod.fst).Nodup)
    (hm : (m, v) ∈ secs) : lookupSec m secs = some v := by
  induction secs with
  | nil => simp at hm
  | cons p rest ih =>
    obtain ⟨k, w⟩ := p
    rcases List.mem_cons.mp hm with h1 | h1
    · obtain ⟨rfl, rfl⟩ := Prod.mk.injEq .. ▸ h1
      simp_all [lookupSec]
    · have hk : k ≠ m := by
        intro hkm
        subst hkm
        simp only [List.map_cons, List.nodup_cons] at hnd
        exact hnd.1 (List.mem_map.mpr ⟨(k, v), h1, rfl⟩)
      have hnd' : (rest.map Prod.fst).Nodup := by
        simp only [List.map_cons, List.nodup_cons] at hnd
        exact hnd.2
      simp [lookupSec, hk, ih hnd' h1]

theorem mem_of_lookupSec_eq_some {m : String} {v : List String}
    {secs : List (String × List String)} (h : lookupSec m secs = some v) :
    (m, v) ∈ secs := by
  induction secs with
  | nil => simp [lookupSec] at h
  | cons p rest ih =>
    obtain ⟨k, w⟩ := p
    by_cases hk : k = m
    · subst hk
      have hw : w = v := by simpa [lookupSec] using h
      subst hw
      simp
    · simp only [lookupSec, hk, if_false] at h
      exact List.mem_cons.mpr (Or.inr (ih h))

theorem map_fst_sectionsOf (lines : List String) :
    (sectionsOf lines).map Prod.fst = markers := by
  rw [sectionsOf, map_fst_collectGo, initSections, List.map_map]
  have hcomp : (Prod.fst ∘ fun m : String => (m, ([] : List String))) = fun m => m := by
    funext m
    rfl
  rw [hcomp, List.map_id']

theorem splitFirstColon_eq_none_iff (cs : List Char) :
    splitFirstColon cs = none ↔ ':' ∉ cs := by
  induction cs with
  | nil => simp [splitFirstColon]
  | cons c cs ih =>
    by_cases hc : c = ':'
    · subst hc
      simp [splitFirstColon]
    · rw [splitFirstColon, if_neg hc]
      rcases hs : splitFirstColon cs with _ | ⟨pre, post⟩
      · simp only [hs, true_iff] at ih ⊢
        simp only [List.mem_cons, not_or]
        exact ⟨fun he => hc he.symm, ih⟩
      · rw [hs] at ih
        simp only [List.mem_cons]
        constructor
        · intro hx
          simp at hx
        · intro hx
          exact absurd (ih.mpr (fun hmem => hx (Or.inr hmem))) (by simp [hs])

theorem splitFirstColon_append (pre post : List Char) (hpre : ':' ∉ pre) :
    splitFirstColon (pre ++ ':' :: post) = some (pre, post) := by
  induction pre with
  | nil => simp [splitFirstColon]
  | cons c cs ih =>
    have hc : c ≠ ':' := fun he => hpre (he ▸ List.mem_cons_self c cs)
    have hcs : ':' ∉ cs := fun hmem => hpre (List.mem_cons.mpr (Or.inr hmem))
    rw [List.cons_append, splitFirstColon, if_neg hc, ih hcs]

theorem contains_glyph_eq (c : Char) : (['-', '•', ' '].contains c) = isGlyph c := by
  by_cases h1 : c = '-' <;> by_cases h2 : c = '•' <;> by_cases h3 : c = ' ' <;>
    simp [isGlyph, List.contains, h1, h2, h3]

theorem stripBullet_characterization (l : String) :
    ∃ g r : List Char, l.data = g ++ r ∧ (∀ c ∈ g, isGlyph c = true) ∧
      (∀ c, r.head? = some c → isGlyph c = false) ∧ stripBullet l = pyStrip ⟨r⟩ := by
  refine ⟨l.data.takeWhile (fun c => (['-', '•', ' ']).contains c),
    l.data.dropWhile (fun c => (['-', '•', ' ']).contains c),
    (List.takeWhile_append_dropWhile _ _).symm, ?_, ?_, rfl⟩
  · intro c hc
    rw [← contains_glyph_eq c]
    exact List.mem_takeWhile_imp hc
  · intro c hc
    rcases dropWhile_head_false (fun x => (['-', '•', ' ']).contains x) l.data with h | ⟨x, rest, hx, hpx⟩
    · rw [h] at hc
      simp at hc
    · rw [hx] at hc
      simp only [List.head?_cons, Option.some.injEq] at hc
      rw [← contains_glyph_eq c, ← hc]
      exact hpx

theorem markers_strip_self : ∀ m ∈ markers, pyStrip m = m ∧ isMarkerLine m = true := by
  decide

theorem markers_nodup : markers.Nodup := by decide

theorem filenameFor_inj_on_markers :
    ∀ x ∈ markers, ∀ y ∈ markers, filenameFor x = filenameFor y → x = y := by
  decide

theorem map_fst_initSections : initSections.map Prod.fst = markers := by
  rw [initSections, List.map_map]
  have hcomp : (Prod.fst ∘ fun m : String => (m, ([] : List String))) = fun m => m := by
    funext m
    rfl
  rw [hcomp, List.map_id']

/-! ## Claim theorems -/

/-- Counterexample for C1: on the text `"a\n \nb"`, whose middle line holds a
single space, the source code keeps one block while the claimed blank-line
partition (a blank line is one that trims to empty) would give the two blocks
`["a", "b"]`. -/
theorem blocksOf_whitespace_line_not_separator :
    blocksOf "a\n \nb" = ["a\n \nb"] ∧
    blocksSpecBlankLines "a\n \nb" = ["a", "b"] ∧
    blocksOf "a\n \nb" ≠ blocksSpecBlankLines "a\n \nb" := by
  decide

/-- C1 (amended): `build_slides_from_outline` obtains its slide blocks by
partitioning the text at occurrences of the two-character sequence of two
newlines (so rejoining the pieces with that separator reproduces the text
exactly), stripping each piece, and discarding pieces that strip to empty; a
line that contains whitespace is not a separator. -/
theorem blocksOf_double_newline_partition (text : String) :
    pyJoin "\n\n" (pySplit "\n\n" text) = text ∧
    blocksOf text = ((pySplit "\n\n" text).map pyStrip).filter (fun b => b ≠ "") := by
  constructor
  · exact pyJoin_pySplit "\n\n" (by decide) text
  · exact filterMap_strip_eq_map_filter pyStrip (pySplit "\n\n" text)

/-- C2: a missing outline file (`none`) or an outline whose content yields zero
non-empty blocks — in particular any empty or whitespace-only content — makes
`build_slides_from_outline` return `none`: zero slides, a diagnostic instead of
an exception, and no write to the deck path (a pre-existing deck file is left
unchanged). -/
theorem build_slides_missing_or_empty_skips :
    build_slides_from_outline none = none ∧
    (∀ text : String, blocksOf text = [] → build_slides_from_outline (some text) = none) ∧
    (∀ text : String, pyStrip text = "" → blocksOf text = []) := by
  refine ⟨rfl, ?_, ?_⟩
  · intro text h
    simp [build_slides_from_outline, h]
  · intro text h
    rw [blocksOf]
    apply List.filterMap_eq_nil_iff.mpr
    intro b hb
    have hbe : pyStrip b = "" :=
      pyStrip_of_all_ws_text h (show ("\n\n" : String) ≠ "" by decide) b hb
    simp [hbe]

theorem build_slides_missing_or_empty_skips_witness :
    build_slides_from_outline none = none ∧
    build_slides_from_outline (some " \n \n ") = none := by
  refine ⟨build_slides_missing_or_empty_skips.1, ?_⟩
  exact build_slides_missing_or_empty_skips.2.1 " \n \n "
    (build_slides_missing_or_empty_skips.2.2 " \n \n " (by decide))

/-- C3: the bucket collected for a marker `m` is exactly the declaratively
characterized list: the non-marker input lines whose most recently seen marker
is `m`, verbatim and in input order (lines before the first marker fall under
cursor `none` and are discarded), and no marker line ever appears in any
bucket. -/
theorem sections_collect_exactly_under_recent_marker (lines : List String) (m : String)
    (hm : m ∈ markers) :
    getSec m (sectionsOf lines) = specSectionLines m none lines ∧
    ∀ l ∈ getSec m (sectionsOf lines), isMarkerLine l = false := by
  refine ⟨getSec_sectionsOf m hm lines, ?_⟩
  intro l hl
  rw [getSec_sectionsOf m hm lines] at hl
  exact specSectionLines_no_marker m none lines l hl

theorem sections_collect_exactly_under_recent_marker_witness :
    getSec "[LINKEDIN POST]"
        (sectionsOf ["x", "[LINKEDIN POST]", " a ", "[SLIDE OUTLINE]", "b"]) =
      specSectionLines "[LINKEDIN POST]" none
        ["x", "[LINKEDIN POST]", " a ", "[SLIDE OUTLINE]", "b"] :=
  (sections_collect_exactly_under_recent_marker
    ["x", "[LINKEDIN POST]", " a ", "[SLIDE OUTLINE]", "b"] "[LINKEDIN POST]" (by decide)).1

/-- C4: the derived output filename of each of the four fixed markers is the
marker's bracket contents lower-cased with spaces replaced by underscores plus
the `.txt` suffix, and the four filenames are pairwise distinct (injectivity
over the marker set); derivation is a pure function of the marker. -/
theorem filename_derivation_deterministic_injective :
    filenameFor "[KEYNOTE SPEECH]" = "keynote_speech.txt" ∧
    filenameFor "[LINKEDIN POST]" = "linkedin_post.txt" ∧
    filenameFor "[YOUTUBE SCRIPT]" = "youtube_script.txt" ∧
    filenameFor "[SLIDE OUTLINE]" = "slide_outline.txt" ∧
    (markers.map filenameFor).Nodup := by
  decide

/-- C5: when the first line of a block contains a colon, the title is
everything after the first colon, stripped (for a first line decomposing as
`pre ++ ":" ++ post` with no colon in `pre`, the title is `post` stripped);
otherwise the title is the whole line; in particular `"Slide 2: Benefits"`
yields exactly `"Benefits"`. -/
theorem title_after_first_colon (raw : String) :
    ((':' ∉ raw.data) → titleOf raw = raw) ∧
    (∀ pre post : List Char, raw.data = pre ++ ':' :: post → ':' ∉ pre →
      titleOf raw = pyStrip ⟨post⟩) ∧
    titleOf "Slide 2: Benefits" = "Benefits" := by
  refine ⟨?_, ?_, by decide⟩
  · intro h
    have hnone : splitFirstColon raw.data = none :=
      (splitFirstColon_eq_none_iff raw.data).mpr h
    simp [titleOf, hnone]
  · intro pre post hdata hpre
    have hsome : splitFirstColon raw.data = some (pre, post) := by
      rw [hdata]
      exact splitFirstColon_append pre post hpre
    simp [titleOf, hsome]

theorem title_after_first_colon_witness :
    titleOf "no colon" = "no colon" ∧ titleOf "Slide 2: Benefits" = "Benefits" := by
  constructor
  · exact (title_after_first_colon "no colon").1 (by decide)
  · exact (title_after_first_colon "x").2.2

/-- C6: every block of the outline produces exactly one slide (even when no
bullets survive): its bullets are the lines after the first, each with the
leading run of hyphen, bullet-dot and space characters stripped and then
trimmed, with lines that became empty dropped (so the empty string never
occurs among a slide's bullets, and a block whose bullet candidates all strip
to empty yields a slide with an empty bullet list); stripping takes exactly
the leading glyph run, and `"- Fast"` yields exactly `"Fast"`. -/
theorem bullets_glyph_stripped_empty_dropped (text b : String) (hb : b ∈ blocksOf text) :
    (∃ s : Slide, slideOfBlock b = some s ∧ s ∈ buildSlides text ∧
      "" ∉ s.bullets ∧
      s.bullets = ((blockLines b).tail.map stripBullet).filter (fun x => x ≠ "") ∧
      ((∀ l ∈ (blockLines b).tail, stripBullet l = "") → s.bullets = [])) ∧
    (∀ l : String, ∃ g r : List Char, l.data = g ++ r ∧
      (∀ c ∈ g, isGlyph c = true) ∧ (∀ c, r.head? = some c → isGlyph c = false) ∧
      stripBullet l = pyStrip ⟨r⟩) ∧
    stripBullet "- Fast" = "Fast" := by
  refine ⟨?_, fun l => stripBullet_characterization l, by decide⟩
  obtain ⟨hstrip, hne⟩ := mem_blocksOf hb
  have hblne : blockLines b ≠ [] := blockLines_ne_nil hstrip hne
  rcases hq : blockLines b with _ | ⟨t, rest⟩
  · exact absurd hq hblne
  · refine ⟨⟨titleOf t, (rest.map stripBullet).filter (fun x => x ≠ "")⟩,
      ?_, ?_, ?_, ?_, ?_⟩
    · simp [slideOfBlock, hq]
    · exact List.mem_filterMap.mpr ⟨b, hb, by simp [slideOfBlock, hq]⟩
    · intro hmem
      have hx := List.mem_filter.mp hmem
      simp at hx
    · simp [hq]
    · intro hall
      apply List.filter_eq_nil_iff.mpr
      intro x hx
      rcases List.mem_map.mp hx with ⟨l, hl, rfl⟩
      simp [hall l hl]

theorem bullets_glyph_stripped_empty_dropped_witness :
    stripBullet "- Fast" = "Fast" ∧ ("T\n- Fast" ∈ blocksOf "T\n- Fast") :=
  ⟨(bullets_glyph_stripped_empty_dropped "T\n- Fast" "T\n- Fast" (by decide)).2.2,
    by decide⟩

/-- C7: when a marker occurs twice, the lines following the second occurrence
are appended to the same bucket after the lines following the first
occurrence, in encounter order — nothing is overwritten and no error is
raised. -/
theorem duplicate_marker_appends_same_bucket (a b : List String) (m : String)
    (hm : m ∈ markers) (ha : ∀ l ∈ a, isMarkerLine l = false)
    (hb : ∀ l ∈ b, isMarkerLine l = false) :
    getSec m (sectionsOf (m :: a ++ m :: b)) = a ++ b := by
  obtain ⟨hstrip, hmark⟩ := markers_strip_self m hm
  rw [getSec_sectionsOf m hm, List.cons_append]
  have h1 : specSectionLines m none (m :: (a ++ m :: b)) =
      specSectionLines m (some m) (a ++ m :: b) := by
    simp [specSectionLines, hmark, hstrip]
  rw [h1, specSectionLines_append_content m a ha (m :: b)]
  congr 1
  have h2 : specSectionLines m (some m) (m :: b) = specSectionLines m (some m) b := by
    simp [specSectionLines, hmark, hstrip]
  rw [h2]
  have h3 := specSectionLines_append_content m b hb []
  simpa [specSectionLines] using h3

theorem duplicate_marker_appends_same_bucket_witness :
    getSec "[SLIDE OUTLINE]"
        (sectionsOf ("[SLIDE OUTLINE]" :: [" x "] ++ "[SLIDE OUTLINE]" :: ["y"])) =
      [" x "] ++ ["y"] :=
  duplicate_marker_appends_same_bucket [" x "] ["y"] "[SLIDE OUTLINE]"
    (by decide) (by decide) (by decide)

/-- C8: the startup topic validation fails with the fatal `ValueError` exactly
when the entered topic strips to the empty string (every character is
whitespace, including the empty input), and any topic with at least one
non-whitespace character passes validation, carrying the stripped topic into
the pipeline. -/
theorem empty_topic_fatal_validation (raw : String) :
    (validateTopic raw =
        Except.error "Topic cannot be empty. Please run again and enter a valid topic." ↔
      ∀ c ∈ raw.data, isWs c = true) ∧
    ((∃ c ∈ raw.data, isWs c = false) → validateTopic raw = Except.ok (pyStrip raw)) := by
  constructor
  · constructor
    · intro h
      by_cases hs : pyStrip raw = ""
      · exact (pyStrip_eq_empty_iff raw).mp hs
      · simp [validateTopic, hs] at h
    · intro h
      have hs : pyStrip raw = "" := (pyStrip_eq_empty_iff raw).mpr h
      simp [validateTopic, hs]
  · rintro ⟨c, hc, hcw⟩
    have hs : pyStrip raw ≠ "" := by
      intro he
      have hwc := all_ws_of_pyStrip_eq_empty he c hc
      rw [hwc] at hcw
      simp at hcw
    simp [validateTopic, hs]

theorem empty_topic_fatal_validation_witness :
    validateTopic "   " =
      Except.error "Topic cannot be empty. Please run again and enter a valid topic." ∧
    validateTopic " ai " = Except.ok "ai" := by
  constructor
  · exact (empty_topic_fatal_validation "   ").1.mpr (by decide)
  · have h := (empty_topic_fatal_validation " ai ").2 ⟨'a', by decide, by decide⟩
    rw [h, (show pyStrip " ai " = "ai" by decide)]

/-- C9: on every input, the splitting loop with Python's `KeyError` made
explicit never hits a missing key: the cursor is only ever unset or one of
the four markers, all of which are keys of the dictionary, so the safe loop
runs to completion and agrees with the total model. -/
theorem splitting_loop_total_no_missing_key (lines : List String) :
    collectGoSafe lines none initSections = some (sectionsOf lines) := by
  rw [sectionsOf]
  apply collectGoSafe_eq_some
  · intro x hx
    cases hx
  · intro m hm
    rw [map_fst_initSections]
    exact hm

/-- C10: a section is omitted from the written files exactly when its
collected line list is empty; a non-empty bucket all of whose lines are
whitespace-only is still written, and its persisted content — the lines
rejoined with newlines, then stripped — is the empty string. -/
theorem section_omitted_iff_no_lines (lines : List String) (m : String)
    (hm : m ∈ markers) :
    ((∃ c, (filenameFor m, c) ∈ writtenFiles lines) ↔ getSec m (sectionsOf lines) ≠ []) ∧
    ((getSec m (sectionsOf lines) ≠ [] ∧
        ∀ l ∈ getSec m (sectionsOf lines), pyStrip l = "") →
      (filenameFor m, "") ∈ writtenFiles lines) := by
  have hkeys : (sectionsOf lines).map Prod.fst = markers := map_fst_sectionsOf lines
  have hnd : ((sectionsOf lines).map Prod.fst).Nodup := by
    rw [hkeys]
    exact markers_nodup
  have hmem : m ∈ (sectionsOf lines).map Prod.fst := by
    rw [hkeys]
    exact hm
  rcases lookupSec_isSome_of_mem_keys m _ hmem with ⟨v, hv⟩
  have hget : getSec m (sectionsOf lines) = v := by simp [getSec, hv]
  constructor
  · constructor
    · rintro ⟨c, hc⟩
      rw [writtenFiles] at hc
      rcases List.mem_filterMap.mp hc with ⟨⟨k, w⟩, hkw, hsome⟩
      by_cases hw : w = []
      · simp [hw] at hsome
      · simp only [hw, if_neg, Bool.false_eq_true, not_false_iff, Option.some.injEq,
          Prod.mk.injEq] at hsome
        have hk : k ∈ markers := by
          rw [← hkeys]
          exact List.mem_map.mpr ⟨(k, w), hkw, rfl⟩
        have hkm : k = m := filenameFor_inj_on_markers k hk m hm hsome.1
        subst hkm
        have hlk : lookupSec k (sectionsOf lines) = some w :=
          lookupSec_eq_some_of_mem hnd hkw
        rw [hv] at hlk
        have hvw : v = w := by injection hlk
        rw [hget, hvw]
        exact hw
    · intro hne
      refine ⟨pyStrip (pyJoin "\n" v), ?_⟩
      rw [writtenFiles]
      apply List.mem_filterMap.mpr
      refine ⟨(m, v), mem_of_lookupSec_eq_some hv, ?_⟩
      have hvne : v ≠ [] := by
        rw [hget] at hne
        exact hne
      simp [hvne]
  · rintro ⟨hne, hall⟩
    have hvne : v ≠ [] := by
      rw [hget] at hne
      exact hne
    have hcontent : pyStrip (pyJoin "\n" v) = "" := by
      apply pyStrip_pyJoin_eq_empty
      intro l hl
      apply hall
      rw [hget]
      exact hl
    rw [writtenFiles]
    apply List.mem_filterMap.mpr
    refine ⟨(m, v), mem_of_lookupSec_eq_some hv, ?_⟩
    simp [hvne, hcontent]

theorem section_omitted_iff_no_lines_witness :
    (filenameFor "[LINKEDIN POST]", "") ∈ writtenFiles ["[LINKEDIN POST]", "  "] :=
  (section_omitted_iff_no_lines ["[LINKEDIN POST]", "  "] "[LINKEDIN POST]"
    (by decide)).2 ⟨by decide, by decide⟩

end Orchestra
